import Mathlib

/-!
Verification of the nested columnar codec described by the repository's
design document for `cpp/examples/parquet/low_level_api/reader_writer3.cc`.

The example file itself only calls into the Parquet column writer/reader;
the definition/repetition-level codec those calls exercise is not part of
the repository slice, so the codec below is modelled from the specification
(§3, §4 of the design document): schema paths as lists of repetition kinds,
nested values indexed by a path, the Dremel-style level encoding, spaced
(bitmap) writing, decoding, and bounded batch reads.

Levels are modelled as `Nat` (the source stores them in non-negative
`int16`), values as `Int` (the example column is `int32`; arithmetic on
values never occurs, so no modular reduction is needed).
-/

namespace ParquetCodec

/-- Modelled from the spec: the repetition kind of one schema node along a
root-to-leaf path (`REQUIRED | OPTIONAL | REPEATED`). -/
inductive RepKind where
  | required
  | optional
  | repeated
deriving DecidableEq, Repr

/-- Modelled from the spec: a root-to-leaf schema path, "an explicit ordered
list of repetition kinds rather than a pointer-linked tree" (§9). -/
abbrev SchemaPath := List RepKind

/-- Modelled from the spec: maximum definition level of a path — the number
of optional or repeated nodes along it. -/
def maxDefLevel : SchemaPath → Nat
  | [] => 0
  | .required :: p => maxDefLevel p
  | .optional :: p => 1 + maxDefLevel p
  | .repeated :: p => 1 + maxDefLevel p

/-- Modelled from the spec: maximum repetition level of a path — the number
of repeated nodes along it. -/
def maxRepLevel : SchemaPath → Nat
  | [] => 0
  | .required :: p => maxRepLevel p
  | .optional :: p => maxRepLevel p
  | .repeated :: p => 1 + maxRepLevel p

/-- Modelled from the spec: a logical nested value conforming to a schema
path — "arbitrarily nested lists/optionals bottoming out at one primitive
leaf type" (§4.1). A required node adds no structure, an optional node
wraps in `Option`, a repeated node wraps in `List`. -/
def NestedV : SchemaPath → Type
  | [] => Int
  | .required :: p => NestedV p
  | .optional :: p => Option (NestedV p)
  | .repeated :: p => List (NestedV p)

instance instOfNatNestedVNil (n : Nat) : OfNat (NestedV []) n :=
  inferInstanceAs (OfNat Int n)

instance instDecEqNestedV : (p : SchemaPath) → DecidableEq (NestedV p)
  | [] => inferInstanceAs (DecidableEq Int)
  | .required :: p => instDecEqNestedV p
  | .optional :: p =>
      letI := instDecEqNestedV p
      inferInstanceAs (DecidableEq (Option (NestedV p)))
  | .repeated :: p =>
      letI := instDecEqNestedV p
      inferInstanceAs (DecidableEq (List (NestedV p)))

/-- One emitted slot occurrence: a definition level, a repetition level and
the value carried by the slot (`none` when the occurrence is absent). -/
structure Occ where
  dl : Nat
  rl : Nat
  ov : Option Int
deriving DecidableEq, Repr

/-- Modelled from the spec: the Flat Column Triple (§3) — values plus the
two parallel level arrays. -/
structure Triple where
  values : List Int
  definition_levels : List Nat
  repetition_levels : List Nat
deriving DecidableEq, Repr

/-- Modelled from the spec: the error kinds of §7 that the codec surfaces. -/
inductive CodecErr where
  | SchemaViolation
  | CapacityMismatch
  | CorruptLevels
deriving DecidableEq, Repr

/-- Modelled from the spec: the depth-first Dremel traversal of §4.1.
`d` is the definition level accumulated from present ancestors, `r` the
repetition depth already entered, and `rf` the repetition level to stamp on
the first occurrence this value emits (inherited from the context: `0` for
a fresh top-level record, the depth of a repeated ancestor for its later
elements). Subsequent elements of a repeated node at depth `r + 1` are
stamped `r + 1`. -/
def encAux : (p : SchemaPath) → NestedV p → Nat → Nat → Nat → List Occ
  | [], v, d, _, rf => [⟨d, rf, some v⟩]
  | .required :: p, v, d, r, rf => encAux p v d r rf
  | .optional :: p, v, d, r, rf =>
      match v with
      | none => [⟨d, rf, none⟩]
      | some w => encAux p w (d + 1) r rf
  | .repeated :: p, v, d, r, rf =>
      match v with
      | [] => [⟨d, rf, none⟩]
      | w :: ws =>
          encAux p w (d + 1) (r + 1) rf ++
            ws.flatMap (fun u => encAux p u (d + 1) (r + 1) (r + 1))

/-- Occurrence stream of a whole record set: each record starts a new
top-level group, i.e. is encoded with repetition level 0 on its first slot. -/
def encodeRecords (p : SchemaPath) (xs : List (NestedV p)) : List Occ :=
  xs.flatMap (fun v => encAux p v 0 0 0)

/-- Modelled from the spec: `Encode(logical_records, schema_path) →
FlatColumnTriple` (§4.1). Values are appended only for present occurrences. -/
def Encode (p : SchemaPath) (xs : List (NestedV p)) : Triple :=
  let os := encodeRecords p xs
  { values := os.filterMap (·.ov)
    definition_levels := os.map (·.dl)
    repetition_levels := os.map (·.rl) }

/-- Modelled from the spec: number of logical slot occurrences (including
nulls) one nested value contributes (§3). -/
def countSlots : (p : SchemaPath) → NestedV p → Nat
  | [], _ => 1
  | .required :: p, v => countSlots p v
  | .optional :: p, v =>
      match v with
      | none => 1
      | some w => countSlots p w
  | .repeated :: p, v =>
      match v with
      | [] => 1
      | ws => (ws.map (fun u => countSlots p u)).sum

/-- Number of present leaf occurrences of one nested value. -/
def countPresent : (p : SchemaPath) → NestedV p → Nat
  | [], _ => 1
  | .required :: p, v => countPresent p v
  | .optional :: p, v =>
      match v with
      | none => 0
      | some w => countPresent p w
  | .repeated :: p, v => (v.map (fun u => countPresent p u)).sum

/-- Number of absent (null / empty) leaf occurrences of one nested value. -/
def countAbsent : (p : SchemaPath) → NestedV p → Nat
  | [], _ => 0
  | .required :: p, v => countAbsent p v
  | .optional :: p, v =>
      match v with
      | none => 1
      | some w => countAbsent p w
  | .repeated :: p, v =>
      match v with
      | [] => 1
      | ws => (ws.map (fun u => countAbsent p u)).sum

/-- Total slot occurrences of a record set. -/
def totalSlots (p : SchemaPath) (xs : List (NestedV p)) : Nat :=
  (xs.map (fun v => countSlots p v)).sum

/-- Total absent leaf occurrences of a record set. -/
def totalAbsent (p : SchemaPath) (xs : List (NestedV p)) : Nat :=
  (xs.map (fun v => countAbsent p v)).sum

/-- Split helper: scans a stream, cutting a new chunk before every
occurrence whose repetition level equals `rd`. Returns the prefix belonging
to the chunk already open, and the list of chunks opened afterwards. -/
def chunkAux (rd : Nat) : List Occ → List Occ × List (List Occ)
  | [] => ([], [])
  | o :: rest =>
      let s := chunkAux rd rest
      if o.rl = rd then ([], (o :: s.1) :: s.2) else (o :: s.1, s.2)

/-- Splits a stream into the spans of consecutive elements of a repeated
group at depth `rd`: the first occurrence always opens the first span, and
each later occurrence with repetition level exactly `rd` opens a new one. -/
def splitChunks (rd : Nat) : List Occ → List (List Occ)
  | [] => []
  | o :: rest =>
      let s := chunkAux rd rest
      (o :: s.1) :: s.2

/-- Applies a fallible decoder to every element, succeeding only when every
element decodes. -/
def optMapList {α β : Type} (g : α → Option β) : List α → Option (List β)
  | [] => some []
  | a :: l =>
      match g a with
      | none => none
      | some b => (optMapList g l).map (fun bs => b :: bs)

/-- Modelled from the spec: decodes one nested value from the exact span of
slot occurrences belonging to it (§4.1 Decode). `d` is the definition level
of the already-present ancestors and `r` the repetition depth already
entered; a definition level equal to `d` marks the value absent at this
node, a larger one means the node is present and decoding continues deeper;
elements of a repeated node at depth `r + 1` are the spans produced by
`splitChunks (r + 1)`. -/
def decRec : (p : SchemaPath) → Nat → Nat → List Occ → Option (NestedV p)
  | [], d, _, os =>
      match os with
      | [⟨dl, _, some x⟩] => if dl = d then some x else none
      | _ => none
  | .required :: p, d, r, os => decRec p d r os
  | .optional :: p, d, r, os =>
      match os with
      | [] => none
      | ⟨dl, _, ov⟩ :: rest =>
          if d < dl then
            (decRec p (d + 1) r os).map (fun w => show NestedV (.optional :: p) from some w)
          else if dl = d ∧ rest = [] ∧ ov = none then
            some (show NestedV (.optional :: p) from none)
          else none
  | .repeated :: p, d, r, os =>
      match os with
      | [] => none
      | ⟨dl, _, ov⟩ :: rest =>
          if d < dl then
            (optMapList (fun c => decRec p (d + 1) (r + 1) c) (splitChunks (r + 1) os)).map
              (fun ws => show NestedV (.repeated :: p) from ws)
          else if dl = d ∧ rest = [] ∧ ov = none then
            some (show NestedV (.repeated :: p) from [])
          else none

/-- Modelled from the spec: rebuilds the slot-occurrence stream from the two
level arrays and the compacted values array; a value is consumed exactly at
slots whose definition level equals the path's maximum (§4.1 Decode:
"Consumes values sequentially only at slots whose definition level equals
maximum"). Fails when the values run out. -/
def rebuildOccs (p : SchemaPath) : List (Nat × Nat) → List Int → Option (List Occ)
  | [], _ => some []
  | (dl, rl) :: lvls, vs =>
      if dl = maxDefLevel p then
        match vs with
        | [] => none
        | x :: vt => (rebuildOccs p lvls vt).map (fun os => ⟨dl, rl, some x⟩ :: os)
      else
        (rebuildOccs p lvls vs).map (fun os => ⟨dl, rl, none⟩ :: os)

/-- Modelled from the spec: `Decode(triple, schema_path) → logical_records`
(§4.1). Fails with `CorruptLevels` when the level arrays have mismatched
lengths or some repetition level exceeds the path's maximum repetition
depth; a repetition level of 0 starts a new top-level record. -/
def Decode (p : SchemaPath) (t : Triple) : Except CodecErr (List (NestedV p)) :=
  if t.definition_levels.length ≠ t.repetition_levels.length then
    .error .CorruptLevels
  else if t.repetition_levels.any (fun r => decide (maxRepLevel p < r)) then
    .error .CorruptLevels
  else
    match rebuildOccs p (t.definition_levels.zip t.repetition_levels) t.values with
    | none => .error .CorruptLevels
    | some os =>
        match optMapList (fun c => decRec p 0 0 c) (splitChunks 0 os) with
        | none => .error .CorruptLevels
        | some recs => .ok recs

/-- Modelled from the spec: the output of `EncodeSpaced` (§4.1) — a
fixed-stride values buffer with caller-supplied filler in the invalid
slots, an LSB-first validity bitmap (modelled as a list of bits), and the
same two level arrays `Encode` would produce. -/
structure SpacedColumn where
  values_buffer : List Int
  validity : List Bool
  definition_levels : List Nat
  repetition_levels : List Nat
deriving DecidableEq, Repr

/-- Fills the stride-aligned buffer: a present occurrence contributes its
real value, an absent one keeps the caller-supplied filler at its slot, and
buffer positions past the last occurrence keep their filler as well. -/
def spacedValues : List Occ → List Int → List Int
  | [], fill => fill
  | _ :: _, [] => []
  | o :: os, f :: fs =>
      (match o.ov with
       | some x => x
       | none => f) :: spacedValues os fs

/-- Modelled from the spec: `EncodeSpaced(logical_records, schema_path,
stride)` (§4.1); the stride is the length of the caller-supplied filler
buffer. Bit `i` of the validity bitmap is set iff slot `i` holds a present
occurrence. Fails with `CapacityMismatch` when the stride is smaller than
the number of slot occurrences. -/
def EncodeSpaced (p : SchemaPath) (xs : List (NestedV p)) (fill : List Int) :
    Except CodecErr SpacedColumn :=
  let os := encodeRecords p xs
  if fill.length < os.length then .error .CapacityMismatch
  else
    .ok { values_buffer := spacedValues os fill
          validity := os.map (fun o => o.ov.isSome) ++
            List.replicate (fill.length - os.length) false
          definition_levels := os.map (·.dl)
          repetition_levels := os.map (·.rl) }

/-- Extracts the present values of a spaced buffer: slot `i` is kept iff
bit `i` of the validity bitmap is set; filler slots are never read. -/
def compactSpaced (s : SpacedColumn) : List Int :=
  (s.values_buffer.zip s.validity).filterMap (fun vb => if vb.2 then some vb.1 else none)

/-- Decoding a spaced column: compact the buffer through the bitmap, then
decode the resulting plain triple. -/
def DecodeSpaced (p : SchemaPath) (s : SpacedColumn) : Except CodecErr (List (NestedV p)) :=
  Decode p { values := compactSpaced s
             definition_levels := s.definition_levels
             repetition_levels := s.repetition_levels }

/-- Modelled from the spec: `DecodeBatch(triple, max_slots)` (§4.1) — a
bounded prefix read. Consumes `min max_slots n` level pairs, counts a value
as read at each consumed slot whose definition level equals the path's
maximum, and returns the counts together with the unconsumed remainder of
the triple. Requesting more slots than remain is not a failure. -/
def DecodeBatch (p : SchemaPath) (t : Triple) (maxSlots : Nat) : (Nat × Nat) × Triple :=
  let L := min maxSlots t.definition_levels.length
  let V := ((t.definition_levels.take L).filter (fun dl => decide (dl = maxDefLevel p))).length
  ((L, V),
   { values := t.values.drop V
     definition_levels := t.definition_levels.drop L
     repetition_levels := t.repetition_levels.drop L })

/-- Repeated bounded reads: calls `DecodeBatch` with the same `max_slots`
until the level arrays are exhausted, collecting the `(levels_read,
values_read)` pair of each call. Fuelled by the initial level count, which
suffices whenever `max_slots > 0`. -/
def batchAllF (p : SchemaPath) (k : Nat) : Nat → Triple → List (Nat × Nat)
  | 0, _ => []
  | fuel + 1, t =>
      if t.definition_levels.isEmpty then []
      else
        let s := DecodeBatch p t k
        s.1 :: batchAllF p k fuel s.2

/-- All `(levels_read, values_read)` pairs of an exhaustive sequence of
bounded reads with slot budget `k`. -/
def batchAll (p : SchemaPath) (k : Nat) (t : Triple) : List (Nat × Nat) :=
  batchAllF p k t.definition_levels.length t

/-- Modelled from the spec: the state of the external file layer's writer
(§6): the row groups already sealed, and the row group currently open for
appending column chunks (one Flat Column Triple per chunk). -/
structure FileWriterState where
  sealed : List (List Triple)
  current : Option (List Triple)
deriving Repr

/-- A freshly opened writer: no row groups, none in progress. -/
def openWriter : FileWriterState := ⟨[], none⟩

/-- `AppendRowGroup`: seals the row group in progress, if any, and opens a
new empty one. -/
def appendRowGroup (w : FileWriterState) : FileWriterState :=
  ⟨w.sealed ++ w.current.toList, some []⟩

/-- Writing one column chunk into the row group in progress. -/
def writeColumnChunk (w : FileWriterState) (t : Triple) : FileWriterState :=
  { w with current := w.current.map (fun g => g ++ [t]) }

/-- `Close`: seals the row group in progress and yields the persisted file,
a list of row groups each holding its column chunks. -/
def closeWriter (w : FileWriterState) : List (List Triple) :=
  w.sealed ++ w.current.toList

/-- Modelled from the spec: per-file metadata row-group count (§6). -/
def numRowGroups (f : List (List Triple)) : Nat := f.length

/-- Modelled from the spec: per-file metadata column count (§6), read off
the first row group. -/
def numColumns (f : List (List Triple)) : Nat :=
  match f with
  | [] => 0
  | g :: _ => g.length

/-! ## The concrete example of `reader_writer3.cc`

The source writes definition levels `[3, 2, 3, 3, 3]`, repetition levels
`[0, 1, 1, 1, 1]` and spaced values `[1, -999, 2, 3, 4]` under the validity
bitmap `0b11101`, then reads back with `max_slots = 3`. The schema path is
set up by `SetupNestedSchema` (declared outside this repository slice);
the level data fixes its shape: maximum definition level 3 and maximum
repetition level 1, e.g. optional group / repeated group / optional leaf. -/

/-- The nested schema path exercised by the example. -/
def examplePath : SchemaPath := [.optional, .repeated, .optional]

/-- Definition levels written by the example. -/
def exampleDefs : List Nat := [3, 2, 3, 3, 3]

/-- Repetition levels written by the example. -/
def exampleReps : List Nat := [0, 1, 1, 1, 1]

/-- The stride-5 spaced values buffer of the example, with the `-999`
sentinel filler at the invalid slot. -/
def exampleSpacedValues : List Int := [1, -999, 2, 3, 4]

/-- The validity bitmap `0b11101`, LSB first, over stride 5. -/
def exampleValidity : List Bool := (List.range 5).map (fun i => Nat.testBit 29 i)

/-- The spaced column the example writes. -/
def exampleSpaced : SpacedColumn :=
  { values_buffer := exampleSpacedValues
    validity := exampleValidity
    definition_levels := exampleDefs
    repetition_levels := exampleReps }

/-- The compacted triple the example's level data describes. -/
def exampleTriple : Triple :=
  { values := [1, 2, 3, 4]
    definition_levels := exampleDefs
    repetition_levels := exampleReps }

/-- The single logical record the example's levels encode: one present
outer group holding one list of five elements, the second of which is null. -/
def exampleRecords : List (NestedV examplePath) :=
  [some [some 1, none, some 2, some 3, some 4]]

/-- The file produced by the example's writer calls: open, append one row
group, write one column chunk, close. -/
def exampleFile : List (List Triple) :=
  closeWriter (writeColumnChunk (appendRowGroup openWriter) exampleTriple)

/-- Total present leaf occurrences of a record set. -/
def totalPresent (p : SchemaPath) (xs : List (NestedV p)) : Nat :=
  (xs.map (fun v => countPresent p v)).sum

/-! ## Generic list helpers -/

theorem flatMap_length_eq {α : Type} (f : α → List Occ) (g : α → Nat) :
    ∀ l : List α, (∀ a ∈ l, (f a).length = g a) → (l.flatMap f).length = (l.map g).sum := by
  intro l
  induction l with
  | nil => intro _; simp
  | cons a l ih =>
      intro h
      simp only [List.flatMap_cons, List.length_append, List.map_cons, List.sum_cons]
      rw [h a (List.mem_cons_self a l), ih (fun b hb => h b (List.mem_cons_of_mem a hb))]

theorem flatMap_filterMap_length {α : Type} (f : α → List Occ) (g : α → Nat) :
    ∀ l : List α, (∀ a ∈ l, ((f a).filterMap (·.ov)).length = g a) →
      ((l.flatMap f).filterMap (·.ov)).length = (l.map g).sum := by
  intro l
  induction l with
  | nil => intro _; simp
  | cons a l ih =>
      intro h
      simp only [List.flatMap_cons, List.filterMap_append, List.length_append,
        List.map_cons, List.sum_cons]
      rw [h a (List.mem_cons_self a l), ih (fun b hb => h b (List.mem_cons_of_mem a hb))]

theorem sum_map_add_sum_map {α : Type} (f g : α → Nat) :
    ∀ l : List α, (l.map f).sum + (l.map g).sum = (l.map fun a => f a + g a).sum := by
  intro l
  induction l with
  | nil => simp
  | cons a l ih => simp only [List.map_cons, List.sum_cons]; omega

theorem optMapList_cons_some {α β : Type} (g : α → Option β) (a : α) (l : List α) (b : β)
    (h : g a = some b) :
    optMapList g (a :: l) = (optMapList g l).map (fun bs => b :: bs) := by
  simp [optMapList, h]

theorem optMapList_map_self {α : Type} (g : List Occ → Option α) (f : α → List Occ) :
    ∀ l : List α, (∀ a ∈ l, g (f a) = some a) → optMapList g (l.map f) = some l := by
  intro l
  induction l with
  | nil => intro _; rfl
  | cons a l ih =>
      intro h
      simp only [List.map_cons, optMapList, h a (List.mem_cons_self a l),
        ih (fun b hb => h b (List.mem_cons_of_mem a hb)), Option.map_some']

/-! ## Shape of the encoded occurrence stream -/

/-- The occurrences emitted for one value: the stream is nonempty, its head
carries the inherited repetition level `rf` and a definition level at least
`d`, and every later occurrence continues strictly below the current
repetition depth `r`. -/
theorem enc_shape : ∀ (p : SchemaPath) (v : NestedV p) (d r rf : Nat),
    ∃ dl ov t, encAux p v d r rf = ⟨dl, rf, ov⟩ :: t ∧ d ≤ dl ∧ ∀ o ∈ t, r + 1 ≤ o.rl
  | [], v, d, _, rf => ⟨d, some v, [], rfl, Nat.le_refl d, by simp⟩
  | .required :: p, v, d, r, rf => enc_shape p v d r rf
  | .optional :: p, none, d, _, rf => ⟨d, none, [], rfl, Nat.le_refl d, by simp⟩
  | .optional :: p, some w, d, r, rf => by
      obtain ⟨dl, ov, t, he, hd, ht⟩ := enc_shape p w (d + 1) r rf
      exact ⟨dl, ov, t, he, by omega, ht⟩
  | .repeated :: p, [], d, _, rf => ⟨d, none, [], rfl, Nat.le_refl d, by simp⟩
  | .repeated :: p, w :: ws, d, r, rf => by
      obtain ⟨dl0, ov0, t0, he0, hd0, ht0⟩ := enc_shape p w (d + 1) (r + 1) rf
      refine ⟨dl0, ov0,
        t0 ++ ws.flatMap (fun u => encAux p u (d + 1) (r + 1) (r + 1)), ?_, by omega, ?_⟩
      · show encAux p w (d + 1) (r + 1) rf ++
            ws.flatMap (fun u => encAux p u (d + 1) (r + 1) (r + 1)) = _
        rw [he0]; rfl
      · intro o ho
        rcases List.mem_append.mp ho with h | h
        · exact Nat.le_of_succ_le (ht0 o h)
        · obtain ⟨u, _, hou⟩ := List.mem_flatMap.mp h
          obtain ⟨dl1, ov1, t1, he1, _, ht1⟩ := enc_shape p u (d + 1) (r + 1) (r + 1)
          rw [he1] at hou
          rcases List.mem_cons.mp hou with rfl | h2
          · exact Nat.le_refl _
          · exact Nat.le_of_succ_le (ht1 o h2)

/-- A present occurrence carries the full definition level of the remaining
path; an absent one falls strictly short of it. -/
theorem enc_dl : ∀ (p : SchemaPath) (v : NestedV p) (d r rf : Nat),
    ∀ o ∈ encAux p v d r rf,
      (o.ov.isSome = true → o.dl = d + maxDefLevel p) ∧
      (o.ov = none → o.dl < d + maxDefLevel p)
  | [], v, d, _, rf => by
      intro o ho
      simp only [encAux, List.mem_singleton] at ho
      subst ho
      refine ⟨fun _ => by simp [maxDefLevel], fun h => by simp at h⟩
  | .required :: p, v, d, r, rf => enc_dl p v d r rf
  | .optional :: p, none, d, _, rf => by
      intro o ho
      simp only [encAux, List.mem_singleton] at ho
      subst ho
      refine ⟨fun h => by simp at h, fun _ => ?_⟩
      simp only [maxDefLevel]
      omega
  | .optional :: p, some w, d, r, rf => by
      intro o ho
      have h := enc_dl p w (d + 1) r rf o ho
      constructor
      · intro hs
        have := h.1 hs
        simp only [maxDefLevel]
        omega
      · intro hn
        have := h.2 hn
        simp only [maxDefLevel]
        omega
  | .repeated :: p, [], d, _, rf => by
      intro o ho
      simp only [encAux, List.mem_singleton] at ho
      subst ho
      refine ⟨fun h => by simp at h, fun _ => ?_⟩
      simp only [maxDefLevel]
      omega
  | .repeated :: p, w :: ws, d, r, rf => by
      intro o ho
      have ho' : o ∈ encAux p w (d + 1) (r + 1) rf ++
          ws.flatMap (fun u => encAux p u (d + 1) (r + 1) (r + 1)) := ho
      have key : (o.ov.isSome = true → o.dl = (d + 1) + maxDefLevel p) ∧
          (o.ov = none → o.dl < (d + 1) + maxDefLevel p) := by
        rcases List.mem_append.mp ho' with h | h
        · exact enc_dl p w (d + 1) (r + 1) rf o h
        · obtain ⟨u, _, hou⟩ := List.mem_flatMap.mp h
          exact enc_dl p u (d + 1) (r + 1) (r + 1) o hou
      constructor
      · intro hs
        have := key.1 hs
        simp only [maxDefLevel]
        omega
      · intro hn
        have := key.2 hn
        simp only [maxDefLevel]
        omega

/-- No emitted repetition level exceeds the current depth plus the maximum
repetition depth of the remaining path, provided the inherited level `rf`
does not exceed the current depth. -/
theorem enc_rl : ∀ (p : SchemaPath) (v : NestedV p) (d r rf : Nat),
    rf ≤ r → ∀ o ∈ encAux p v d r rf, o.rl ≤ r + maxRepLevel p
  | [], v, d, _, rf => by
      intro hrf o ho
      simp only [encAux, List.mem_singleton] at ho
      subst ho
      simp only [maxRepLevel]
      omega
  | .required :: p, v, d, r, rf => enc_rl p v d r rf
  | .optional :: p, none, d, _, rf => by
      intro hrf o ho
      simp only [encAux, List.mem_singleton] at ho
      subst ho
      simp only [maxRepLevel]
      omega
  | .optional :: p, some w, d, r, rf => by
      intro hrf o ho
      exact enc_rl p w (d + 1) r rf hrf o ho
  | .repeated :: p, [], d, _, rf => by
      intro hrf o ho
      simp only [encAux, List.mem_singleton] at ho
      subst ho
      simp only [maxRepLevel]
      omega
  | .repeated :: p, w :: ws, d, r, rf => by
      intro hrf o ho
      have ho' : o ∈ encAux p w (d + 1) (r + 1) rf ++
          ws.flatMap (fun u => encAux p u (d + 1) (r + 1) (r + 1)) := ho
      have key : o.rl ≤ (r + 1) + maxRepLevel p := by
        rcases List.mem_append.mp ho' with h | h
        · exact enc_rl p w (d + 1) (r + 1) rf (by omega) o h
        · obtain ⟨u, _, hou⟩ := List.mem_flatMap.mp h
          exact enc_rl p u (d + 1) (r + 1) (r + 1) (Nat.le_refl _) o hou
      simp only [maxRepLevel]
      omega

/-! ## Counting lemmas -/

/-- One value emits exactly its logical slot count. -/
theorem enc_length : ∀ (p : SchemaPath) (v : NestedV p) (d r rf : Nat),
    (encAux p v d r rf).length = countSlots p v
  | [], v, d, _, rf => rfl
  | .required :: p, v, d, r, rf => enc_length p v d r rf
  | .optional :: p, none, d, _, rf => rfl
  | .optional :: p, some w, d, r, rf => enc_length p w (d + 1) r rf
  | .repeated :: p, [], d, _, rf => rfl
  | .repeated :: p, w :: ws, d, r, rf => by
      show (encAux p w (d + 1) (r + 1) rf ++
          ws.flatMap (fun u => encAux p u (d + 1) (r + 1) (r + 1))).length =
        countSlots (.repeated :: p) (w :: ws)
      rw [List.length_append, enc_length p w (d + 1) (r + 1) rf,
        flatMap_length_eq _ (fun u => countSlots p u) ws
          (fun u _ => enc_length p u (d + 1) (r + 1) (r + 1))]
      show _ = ((w :: ws).map (fun u => countSlots p u)).sum
      simp

/-- One value contributes exactly its present-occurrence count to the
compacted values array. -/
theorem enc_values_length : ∀ (p : SchemaPath) (v : NestedV p) (d r rf : Nat),
    ((encAux p v d r rf).filterMap (·.ov)).length = countPresent p v
  | [], v, d, _, rf => rfl
  | .required :: p, v, d, r, rf => enc_values_length p v d r rf
  | .optional :: p, none, d, _, rf => rfl
  | .optional :: p, some w, d, r, rf => enc_values_length p w (d + 1) r rf
  | .repeated :: p, [], d, _, rf => rfl
  | .repeated :: p, w :: ws, d, r, rf => by
      show (((encAux p w (d + 1) (r + 1) rf ++
          ws.flatMap (fun u => encAux p u (d + 1) (r + 1) (r + 1)))).filterMap (·.ov)).length =
        countPresent (.repeated :: p) (w :: ws)
      rw [List.filterMap_append, List.length_append, enc_values_length p w (d + 1) (r + 1) rf,
        flatMap_filterMap_length _ (fun u => countPresent p u) ws
          (fun u _ => enc_values_length p u (d + 1) (r + 1) (r + 1))]
      show _ = ((w :: ws).map (fun u => countPresent p u)).sum
      simp

/-- Present and absent occurrences together exhaust the slots. -/
theorem count_split : ∀ (p : SchemaPath) (v : NestedV p),
    countPresent p v + countAbsent p v = countSlots p v
  | [], v => rfl
  | .required :: p, v => count_split p v
  | .optional :: p, none => rfl
  | .optional :: p, some w => count_split p w
  | .repeated :: p, [] => rfl
  | .repeated :: p, w :: ws => by
      show ((w :: ws).map (fun u => countPresent p u)).sum +
          ((w :: ws).map (fun u => countAbsent p u)).sum =
        ((w :: ws).map (fun u => countSlots p u)).sum
      rw [sum_map_add_sum_map]
      exact congrArg List.sum (List.map_congr_left (fun u _ => count_split p u))

/-- Length of the full occurrence stream of a record set. -/
theorem encodeRecords_length (p : SchemaPath) (xs : List (NestedV p)) :
    (encodeRecords p xs).length = totalSlots p xs :=
  flatMap_length_eq _ _ xs (fun v _ => enc_length p v 0 0 0)

/-- Length of the compacted values of a record set. -/
theorem encodeRecords_values_length (p : SchemaPath) (xs : List (NestedV p)) :
    ((encodeRecords p xs).filterMap (·.ov)).length = totalPresent p xs :=
  flatMap_filterMap_length _ _ xs (fun v _ => enc_values_length p v 0 0 0)

/-- Present, absent and total slot counts of a record set. -/
theorem total_split (p : SchemaPath) (xs : List (NestedV p)) :
    totalPresent p xs + totalAbsent p xs = totalSlots p xs := by
  unfold totalPresent totalAbsent totalSlots
  rw [sum_map_add_sum_map]
  exact congrArg List.sum (List.map_congr_left (fun v _ => count_split p v))

/-- Every occurrence of a record set's stream is present exactly when its
definition level reaches the path's maximum. -/
theorem encodeRecords_present_iff (p : SchemaPath) (xs : List (NestedV p)) :
    ∀ o ∈ encodeRecords p xs, o.ov.isSome = true ↔ o.dl = maxDefLevel p := by
  intro o ho
  obtain ⟨v, _, hov⟩ := List.mem_flatMap.mp ho
  have h := enc_dl p v 0 0 0 o hov
  constructor
  · intro hs
    have := h.1 hs
    omega
  · intro hdl
    by_contra hns
    have hnone : o.ov = none := Option.not_isSome_iff_eq_none.mp hns
    have := h.2 hnone
    omega

/-- Every repetition level of a record set's stream is bounded by the
path's maximum repetition depth. -/
theorem encodeRecords_rl_le (p : SchemaPath) (xs : List (NestedV p)) :
    ∀ o ∈ encodeRecords p xs, o.rl ≤ maxRepLevel p := by
  intro o ho
  obtain ⟨v, _, hov⟩ := List.mem_flatMap.mp ho
  have := enc_rl p v 0 0 0 (Nat.le_refl 0) o hov
  omega

/-! ## Rebuilding occurrences from a triple -/

/-- Rebuilding inverts the projection of an occurrence stream onto its
levels and compacted values, whenever presence agrees with the maximum
definition level. -/
theorem rebuild_inverse (p : SchemaPath) :
    ∀ os : List Occ, (∀ o ∈ os, o.ov.isSome = true ↔ o.dl = maxDefLevel p) →
      rebuildOccs p (os.map fun o => (o.dl, o.rl)) (os.filterMap (·.ov)) = some os := by
  intro os
  induction os with
  | nil => intro _; rfl
  | cons o os ih =>
      intro h
      obtain ⟨dl, rl, ov⟩ := o
      have hrest := ih (fun b hb => h b (List.mem_cons_of_mem _ hb))
      by_cases hdl : dl = maxDefLevel p
      · have hs : ov.isSome = true := (h _ (List.mem_cons_self _ _)).mpr hdl
        obtain ⟨x, hx⟩ := Option.isSome_iff_exists.mp hs
        subst hx
        simp only [List.map_cons, List.filterMap_cons, rebuildOccs, if_pos hdl, hrest,
          Option.map_some']
      · have hn : ov = none := by
          by_contra hne
          obtain ⟨x, hx⟩ := Option.ne_none_iff_exists'.mp hne
          exact hdl ((h _ (List.mem_cons_self _ _)).mp (by simp [hx]))
        subst hn
        simp only [List.map_cons, List.filterMap_cons, rebuildOccs, if_neg hdl, hrest,
          Option.map_some']

/-- Any successfully rebuilt occurrence stream is present exactly at the
slots whose definition level equals the path's maximum: this is the only
place `Decode` consumes values. -/
theorem rebuild_present_iff (p : SchemaPath) :
    ∀ (lvls : List (Nat × Nat)) (vs : List Int) (os : List Occ),
      rebuildOccs p lvls vs = some os →
      ∀ o ∈ os, o.ov.isSome = true ↔ o.dl = maxDefLevel p := by
  intro lvls
  induction lvls with
  | nil =>
      intro vs os h o ho
      simp only [rebuildOccs] at h
      rw [← Option.some_inj.mp h] at ho
      simp at ho
  | cons lv lvls ih =>
      intro vs os h o ho
      obtain ⟨dl, rl⟩ := lv
      simp only [rebuildOccs] at h
      by_cases hdl : dl = maxDefLevel p
      · rw [if_pos hdl] at h
        cases vs with
        | nil => exact absurd h (by simp)
        | cons x vt =>
            obtain ⟨os', hrec, hos⟩ := Option.map_eq_some'.mp h
            rw [← hos] at ho
            rcases List.mem_cons.mp ho with rfl | h2
            · simp [hdl]
            · exact ih vt os' hrec o h2
      · rw [if_neg hdl] at h
        obtain ⟨os', hrec, hos⟩ := Option.map_eq_some'.mp h
        rw [← hos] at ho
        rcases List.mem_cons.mp ho with rfl | h2
        · simp [hdl]
        · exact ih vs os' hrec o h2

/-! ## Chunk splitting -/

theorem chunkAux_append_no_cut (rd : Nat) :
    ∀ (xs ys : List Occ), (∀ o ∈ xs, o.rl ≠ rd) →
      chunkAux rd (xs ++ ys) = (xs ++ (chunkAux rd ys).1, (chunkAux rd ys).2) := by
  intro xs
  induction xs with
  | nil => intro ys _; simp
  | cons x xs ih =>
      intro ys h
      have hx : x.rl ≠ rd := h x (List.mem_cons_self x xs)
      show chunkAux rd (x :: (xs ++ ys)) = _
      simp only [chunkAux, ih ys (fun o ho => h o (List.mem_cons_of_mem x ho)), if_neg hx]
      simp

/-- A concatenation of blocks, each opening with repetition level `rd` and
continuing strictly deeper, splits back into exactly those blocks with no
residue in the open chunk. -/
theorem chunkAux_flatMap {α : Type} (rd : Nat) (f : α → List Occ) :
    ∀ l : List α,
      (∀ a ∈ l, ∃ hd t, f a = hd :: t ∧ hd.rl = rd ∧ ∀ o ∈ t, rd + 1 ≤ o.rl) →
      chunkAux rd (l.flatMap f) = ([], l.map f) := by
  intro l
  induction l with
  | nil => intro _; rfl
  | cons a l ih =>
      intro h
      obtain ⟨hd, t, hfa, hrl, ht⟩ := h a (List.mem_cons_self a l)
      have hrest := ih (fun b hb => h b (List.mem_cons_of_mem a hb))
      have htne : ∀ o ∈ t, o.rl ≠ rd := fun o ho => by
        have := ht o ho
        omega
      simp only [List.flatMap_cons, hfa, List.cons_append, chunkAux,
        chunkAux_append_no_cut rd t _ htne, hrest, List.append_nil, if_pos hrl,
        List.map_cons, Prod.mk.injEq]

/-- A span opening an element (with strictly deeper continuations) followed
by sibling blocks splits into the span and the blocks. -/
theorem splitChunks_encode {α : Type} (rd : Nat) (e0 : List Occ) (hd0 : Occ) (t0 : List Occ)
    (h0 : e0 = hd0 :: t0) (ht0 : ∀ o ∈ t0, rd + 1 ≤ o.rl) (f : α → List Occ) (l : List α)
    (h : ∀ a ∈ l, ∃ hd t, f a = hd :: t ∧ hd.rl = rd ∧ ∀ o ∈ t, rd + 1 ≤ o.rl) :
    splitChunks rd (e0 ++ l.flatMap f) = e0 :: l.map f := by
  subst h0
  have htne : ∀ o ∈ t0, o.rl ≠ rd := fun o ho => by
    have := ht0 o ho
    omega
  simp only [List.cons_append, splitChunks,
    chunkAux_append_no_cut rd t0 _ htne, chunkAux_flatMap rd f l h, List.append_nil]

/-- The occurrence stream of a record set splits at repetition level 0 into
the per-record streams. -/
theorem splitChunks_records (p : SchemaPath) (xs : List (NestedV p)) :
    splitChunks 0 (encodeRecords p xs) = xs.map (fun v => encAux p v 0 0 0) := by
  cases xs with
  | nil => rfl
  | cons x xs =>
      obtain ⟨dl0, ov0, t0, he0, _, ht0⟩ := enc_shape p x 0 0 0
      show splitChunks 0 (encAux p x 0 0 0 ++ xs.flatMap (fun v => encAux p v 0 0 0)) = _
      rw [splitChunks_encode 0 _ _ _ he0 ht0 _ xs (fun v _ => ?_)]
      · simp
      · obtain ⟨dl1, ov1, t1, he1, _, ht1⟩ := enc_shape p v 0 0 0
        exact ⟨⟨dl1, 0, ov1⟩, t1, he1, rfl, ht1⟩

/-! ## Decoding inverts encoding -/

/-- Decoding the exact span emitted for one value recovers that value,
whatever inherited repetition level the span was stamped with. -/
theorem dec_enc : ∀ (p : SchemaPath) (v : NestedV p) (d r rf : Nat),
    decRec p d r (encAux p v d r rf) = some v
  | [], v, d, r, rf => by simp [encAux, decRec]
  | .required :: p, v, d, r, rf => dec_enc p v d r rf
  | .optional :: p, none, d, r, rf => by simp [encAux, decRec]
  | .repeated :: p, [], d, r, rf => by simp [encAux, decRec]
  | .optional :: p, some w, d, r, rf => by
      obtain ⟨dl, ov, t, he, hd, _⟩ := enc_shape p w (d + 1) r rf
      show decRec (.optional :: p) d r (encAux p w (d + 1) r rf) = some (some w)
      rw [he]
      show (if d < dl then
          (decRec p (d + 1) r (⟨dl, rf, ov⟩ :: t)).map
            (fun u => show NestedV (.optional :: p) from some u)
        else if dl = d ∧ t = [] ∧ ov = none then
          some (show NestedV (.optional :: p) from none)
        else none) = some (some w)
      rw [if_pos (by omega), ← he, dec_enc p w (d + 1) r rf]
      rfl
  | .repeated :: p, w :: ws, d, r, rf => by
      obtain ⟨dl0, ov0, t0, he0, hd0, ht0⟩ := enc_shape p w (d + 1) (r + 1) rf
      have hsplit : splitChunks (r + 1)
          (encAux p w (d + 1) (r + 1) rf ++
            ws.flatMap (fun u => encAux p u (d + 1) (r + 1) (r + 1))) =
          encAux p w (d + 1) (r + 1) rf ::
            ws.map (fun u => encAux p u (d + 1) (r + 1) (r + 1)) := by
        refine splitChunks_encode (r + 1) _ _ _ he0 ht0 _ ws (fun u _ => ?_)
        obtain ⟨dl1, ov1, t1, he1, _, ht1⟩ := enc_shape p u (d + 1) (r + 1) (r + 1)
        exact ⟨⟨dl1, r + 1, ov1⟩, t1, he1, rfl, ht1⟩
      show decRec (.repeated :: p) d r
          (encAux p w (d + 1) (r + 1) rf ++
            ws.flatMap (fun u => encAux p u (d + 1) (r + 1) (r + 1))) = some (w :: ws)
      rw [he0, List.cons_append]
      show (if d < dl0 then
          (optMapList (fun c => decRec p (d + 1) (r + 1) c)
            (splitChunks (r + 1) (⟨dl0, rf, ov0⟩ ::
              (t0 ++ ws.flatMap (fun u => encAux p u (d + 1) (r + 1) (r + 1)))))).map
            (fun us => show NestedV (.repeated :: p) from us)
        else if dl0 = d ∧ (t0 ++ ws.flatMap (fun u => encAux p u (d + 1) (r + 1) (r + 1))) = [] ∧
            ov0 = none then
          some (show NestedV (.repeated :: p) from [])
        else none) = some (w :: ws)
      rw [if_pos (by omega), ← List.cons_append, ← he0, hsplit]
      rw [optMapList_cons_some _ _ _ w (dec_enc p w (d + 1) (r + 1) rf),
        optMapList_map_self _ _ ws (fun u _ => dec_enc p u (d + 1) (r + 1) (r + 1))]
      rfl

/-- The round-trip law: decoding the triple produced by `Encode` yields the
original record set. -/
theorem decode_encode (p : SchemaPath) (xs : List (NestedV p)) :
    Decode p (Encode p xs) = .ok xs := by
  have hany : ((encodeRecords p xs).map (·.rl)).any
      (fun r => decide (maxRepLevel p < r)) = false := by
    rw [List.any_eq_false]
    intro x hx
    obtain ⟨o, ho, rfl⟩ := List.mem_map.mp hx
    have := encodeRecords_rl_le p xs o ho
    simp
    omega
  have hzip : ((encodeRecords p xs).map (·.dl)).zip ((encodeRecords p xs).map (·.rl)) =
      (encodeRecords p xs).map (fun o => (o.dl, o.rl)) := List.zip_map' _ _ _
  have hreb : rebuildOccs p ((encodeRecords p xs).map fun o => (o.dl, o.rl))
      ((encodeRecords p xs).filterMap (·.ov)) = some (encodeRecords p xs) :=
    rebuild_inverse p _ (encodeRecords_present_iff p xs)
  have hdec : optMapList (fun c => decRec p 0 0 c) (splitChunks 0 (encodeRecords p xs)) =
      some xs := by
    rw [splitChunks_records p xs]
    exact optMapList_map_self _ _ xs (fun v _ => dec_enc p v 0 0 0)
  simp only [Decode, Encode, List.length_map, ne_eq, not_true_eq_false, if_false, ite_false,
    hany, hzip, hreb, hdec, if_neg, Bool.false_eq_true]

/-! ## Spaced writing -/

theorem zip_replicate_false_filterMap :
    ∀ (l : List Int) (n : Nat),
      ((l.zip (List.replicate n false)).filterMap
        (fun vb => if vb.2 then some vb.1 else none)) = [] := by
  intro l
  induction l with
  | nil => intro n; simp
  | cons x l ih =>
      intro n
      cases n with
      | zero => simp
      | succ n =>
          simp only [List.replicate, List.zip_cons_cons, List.filterMap_cons, ih n]
          simp

/-- Compacting a spaced buffer through its validity bitmap recovers exactly
the present values, whatever filler occupied the invalid slots. -/
theorem compact_spaced_eq :
    ∀ (os : List Occ) (fill : List Int), os.length ≤ fill.length →
      ((spacedValues os fill).zip
          (os.map (fun o => o.ov.isSome) ++ List.replicate (fill.length - os.length) false)
        ).filterMap (fun vb => if vb.2 then some vb.1 else none) =
      os.filterMap (·.ov) := by
  intro os
  induction os with
  | nil =>
      intro fill _
      simp only [spacedValues, List.map_nil, List.nil_append, List.length_nil, Nat.sub_zero,
        List.filterMap_nil]
      exact zip_replicate_false_filterMap fill fill.length
  | cons o os ih =>
      intro fill h
      cases fill with
      | nil => simp at h
      | cons f fs =>
          have h' : os.length ≤ fs.length := by
            simp only [List.length_cons] at h
            omega
          have hsub : (f :: fs).length - (o :: os).length = fs.length - os.length := by
            simp [Nat.succ_sub_succ]
          rw [hsub]
          cases hov : o.ov with
          | none =>
              simp only [spacedValues, hov, List.map_cons, Option.isSome_none,
                List.cons_append, List.zip_cons_cons, List.filterMap_cons, if_neg
                  (by simp : ¬((false : Bool) = true)), ih fs h']
          | some x =>
              simp only [spacedValues, hov, List.map_cons, Option.isSome_some,
                List.cons_append, List.zip_cons_cons, List.filterMap_cons, if_pos rfl, ih fs h']
              simp [hov]

/-- A successful spaced encode carries the same levels as `Encode` and a
buffer that compacts to `Encode`'s values: decoding it goes through the
very same triple. -/
theorem decodeSpaced_eq_decode_encode (p : SchemaPath) (xs : List (NestedV p))
    (fill : List Int) (s : SpacedColumn) (h : EncodeSpaced p xs fill = .ok s) :
    DecodeSpaced p s = Decode p (Encode p xs) := by
  unfold EncodeSpaced at h
  by_cases hcap : fill.length < (encodeRecords p xs).length
  · rw [if_pos hcap] at h
    exact absurd h (by simp)
  · rw [if_neg hcap] at h
    injection h with hs
    subst hs
    unfold DecodeSpaced
    congr 1
    unfold compactSpaced Encode
    simp only
    rw [compact_spaced_eq (encodeRecords p xs) fill (by omega)]

/-! ## Bounded batch reads -/

/-- `DecodeBatch` consumes exactly `min max_slots n` level pairs and never
reports more values than levels. -/
theorem decodeBatch_bounds (p : SchemaPath) (t : Triple) (m : Nat) :
    (DecodeBatch p t m).1.1 ≤ m ∧
    (DecodeBatch p t m).1.2 ≤ (DecodeBatch p t m).1.1 ∧
    (DecodeBatch p t m).1.1 = min m t.definition_levels.length := by
  refine ⟨Nat.min_le_left _ _, ?_, rfl⟩
  show ((t.definition_levels.take (min m t.definition_levels.length)).filter
      (fun dl => decide (dl = maxDefLevel p))).length ≤ min m t.definition_levels.length
  have h1 := List.length_filter_le (fun dl => decide (dl = maxDefLevel p))
    (t.definition_levels.take (min m t.definition_levels.length))
  have h2 := List.length_take (min m t.definition_levels.length) t.definition_levels
  omega

theorem ceil_step (n k : Nat) (hk : 0 < k) (hn : 0 < n) :
    (n - min k n + k - 1) / k + 1 = (n + k - 1) / k := by
  rcases le_or_lt k n with hkn | hnk
  · rw [Nat.min_eq_left hkn, show n - k + k - 1 = n - 1 from by omega,
      show n + k - 1 = (n - 1) + k from by omega, Nat.add_div_right _ hk]
  · rw [Nat.min_eq_right (Nat.le_of_lt hnk), show n - n + k - 1 = k - 1 from by omega,
      Nat.div_eq_of_lt (by omega)]
    have hone : (n + k - 1) / k = 1 := by
      rw [Nat.div_eq_of_lt_le] <;> omega
    omega

/-- Exhaustive bounded reading with a positive slot budget `k`: enough fuel
yields `ceil(n / k)` calls whose level counts sum to `n` and whose value
counts sum to the number of present slots. -/
theorem batchAllF_spec (p : SchemaPath) (k : Nat) (hk : 0 < k) :
    ∀ (fuel : Nat) (t : Triple), t.definition_levels.length ≤ fuel →
      (batchAllF p k fuel t).length = (t.definition_levels.length + k - 1) / k ∧
      ((batchAllF p k fuel t).map (·.1)).sum = t.definition_levels.length ∧
      ((batchAllF p k fuel t).map (·.2)).sum =
        (t.definition_levels.filter (fun dl => decide (dl = maxDefLevel p))).length := by
  intro fuel
  induction fuel with
  | zero =>
      intro t h
      have hnil : t.definition_levels = [] := List.length_eq_zero.mp (Nat.le_zero.mp h)
      simp [batchAllF, hnil, Nat.div_eq_of_lt (show k - 1 < k from by omega)]
  | succ fuel ih =>
      intro t h
      by_cases hempty : t.definition_levels.isEmpty = true
      · have hnil : t.definition_levels = [] := by simpa [List.isEmpty_iff] using hempty
        simp [batchAllF, hempty, hnil, Nat.div_eq_of_lt (show k - 1 < k from by omega)]
      · have hnil : t.definition_levels ≠ [] := by simpa [List.isEmpty_iff] using hempty
        have hn : 0 < t.definition_levels.length := List.length_pos.mpr hnil
        have hL : (DecodeBatch p t k).1.1 = min k t.definition_levels.length := rfl
        have hV : (DecodeBatch p t k).1.2 =
            ((t.definition_levels.take (min k t.definition_levels.length)).filter
              (fun dl => decide (dl = maxDefLevel p))).length := rfl
        have hrest : (DecodeBatch p t k).2.definition_levels =
            t.definition_levels.drop (min k t.definition_levels.length) := rfl
        have hrlen : (DecodeBatch p t k).2.definition_levels.length =
            t.definition_levels.length - min k t.definition_levels.length := by
          rw [hrest, List.length_drop]
        have hfuel : (DecodeBatch p t k).2.definition_levels.length ≤ fuel := by
          rw [hrlen]
          omega
        obtain ⟨ihlen, ihlev, ihval⟩ := ih (DecodeBatch p t k).2 hfuel
        have hstep : batchAllF p k (fuel + 1) t =
            (DecodeBatch p t k).1 :: batchAllF p k fuel (DecodeBatch p t k).2 := by
          simp [batchAllF, hempty]
        rw [hstep]
        refine ⟨?_, ?_, ?_⟩
        · rw [List.length_cons, ihlen, hrlen]
          exact ceil_step t.definition_levels.length k hk hn
        · rw [List.map_cons, List.sum_cons, ihlev, hrlen, hL]
          omega
        · rw [List.map_cons, List.sum_cons, ihval, hrest, hV]
          have hsplitf := congrArg
            (fun l => (l.filter (fun dl => decide (dl = maxDefLevel p))).length)
            (List.take_append_drop (min k t.definition_levels.length) t.definition_levels)
          simp only [List.filter_append, List.length_append] at hsplitf
          exact hsplitf

/-! ## Claims -/

/-- C1: for every nested record set valid against the schema path — any
inhabitant of the path-indexed record type — decoding the triple produced
by `Encode` is observationally equal to the original records
(`Decode (Encode X) = ok X`). -/
theorem claim_C1 (p : SchemaPath) (xs : List (NestedV p)) :
    Decode p (Encode p xs) = .ok xs :=
  decode_encode p xs

/-- C2: on the example input — definition levels `[3,2,3,3,3]`, repetition
levels `[0,1,1,1,1]`, spaced values `[1,-999,2,3,4]` with validity bitmap
`0b11101` over stride 5 — decoding yields exactly the 4 present values
`[1,2,3,4]`, 5 logical slot occurrences, and a bounded read with
`max_slots = 3` reports `levels_read = 3` and `values_read = 2`. -/
theorem claim_C2 :
    compactSpaced exampleSpaced = [1, 2, 3, 4] ∧
    (compactSpaced exampleSpaced).length = 4 ∧
    DecodeSpaced examplePath exampleSpaced = .ok exampleRecords ∧
    exampleSpaced.definition_levels.length = 5 ∧
    totalSlots examplePath exampleRecords = 5 ∧
    (DecodeBatch examplePath exampleTriple 3).1.1 = 3 ∧
    (DecodeBatch examplePath exampleTriple 3).1.2 = 2 :=
  ⟨rfl, rfl, rfl, rfl, rfl, rfl, rfl⟩

/-- C3: whenever `EncodeSpaced` succeeds, decoding its output through the
validity bitmap reconstructs the same logical records as decoding plain
`Encode`'s output — for every filler buffer, whose contents in invalid
slots never influence the result. -/
theorem claim_C3 (p : SchemaPath) (xs : List (NestedV p)) (fill : List Int)
    (s : SpacedColumn) (h : EncodeSpaced p xs fill = .ok s) :
    DecodeSpaced p s = Decode p (Encode p xs) ∧ DecodeSpaced p s = .ok xs := by
  have h1 := decodeSpaced_eq_decode_encode p xs fill s h
  exact ⟨h1, h1.trans (decode_encode p xs)⟩

/-- Witness for C3 at the example records with the `-999` sentinel filler. -/
theorem claim_C3_witness :
    EncodeSpaced examplePath exampleRecords [0, -999, 0, 0, 0] = .ok exampleSpaced ∧
    (DecodeSpaced examplePath exampleSpaced =
        Decode examplePath (Encode examplePath exampleRecords) ∧
      DecodeSpaced examplePath exampleSpaced = .ok exampleRecords) :=
  ⟨rfl, claim_C3 examplePath exampleRecords [0, -999, 0, 0, 0] exampleSpaced rfl⟩

/-- C4: for every input, `Encode` emits as many definition levels as
repetition levels, and both count the total logical slot occurrences. -/
theorem claim_C4 (p : SchemaPath) (xs : List (NestedV p)) :
    (Encode p xs).definition_levels.length = (Encode p xs).repetition_levels.length ∧
    (Encode p xs).definition_levels.length = totalSlots p xs := by
  refine ⟨by simp [Encode], ?_⟩
  show ((encodeRecords p xs).map (·.dl)).length = totalSlots p xs
  rw [List.length_map, encodeRecords_length]

/-- C5: for every input, `Encode` emits at most as many values as
definition levels, with equality exactly when no absent (null / empty) leaf
occurrence exists along the path. -/
theorem claim_C5 (p : SchemaPath) (xs : List (NestedV p)) :
    (Encode p xs).values.length ≤ (Encode p xs).definition_levels.length ∧
    ((Encode p xs).values.length = (Encode p xs).definition_levels.length ↔
      totalAbsent p xs = 0) := by
  have hv : (Encode p xs).values.length = totalPresent p xs := by
    show ((encodeRecords p xs).filterMap (·.ov)).length = _
    exact encodeRecords_values_length p xs
  have hd : (Encode p xs).definition_levels.length = totalSlots p xs := by
    show ((encodeRecords p xs).map (·.dl)).length = _
    rw [List.length_map, encodeRecords_length]
  have hsplit := total_split p xs
  rw [hv, hd]
  omega

/-- C6: an occurrence emitted by `Encode` carries a value exactly when its
definition level equals the path's maximum definition depth, and `Decode`'s
rebuilt stream consumes a value exactly at such slots. -/
theorem claim_C6 (p : SchemaPath) (xs : List (NestedV p)) :
    (∀ o ∈ encodeRecords p xs, o.ov.isSome = true ↔ o.dl = maxDefLevel p) ∧
    ∀ (lvls : List (Nat × Nat)) (vs : List Int) (os : List Occ),
      rebuildOccs p lvls vs = some os →
      ∀ o ∈ os, o.ov.isSome = true ↔ o.dl = maxDefLevel p :=
  ⟨encodeRecords_present_iff p xs, rebuild_present_iff p⟩

/-- Witness for C6 at a present and an absent occurrence of the example. -/
theorem claim_C6_witness :
    ((⟨3, 0, some 1⟩ : Occ) ∈ encodeRecords examplePath exampleRecords ∧
      ((⟨3, 0, some 1⟩ : Occ).ov.isSome = true ↔
        (⟨3, 0, some 1⟩ : Occ).dl = maxDefLevel examplePath)) ∧
    (rebuildOccs examplePath [(2, 1)] [] = some [⟨2, 1, none⟩] ∧
      ((⟨2, 1, none⟩ : Occ).ov.isSome = true ↔
        (⟨2, 1, none⟩ : Occ).dl = maxDefLevel examplePath)) := by
  constructor
  · have hm : (⟨3, 0, some 1⟩ : Occ) ∈ encodeRecords examplePath exampleRecords := by decide
    exact ⟨hm, (claim_C6 examplePath exampleRecords).1 _ hm⟩
  · have hr : rebuildOccs examplePath [(2, 1)] [] = some [⟨2, 1, none⟩] := rfl
    exact ⟨hr, (claim_C6 examplePath exampleRecords).2 [(2, 1)] [] [⟨2, 1, none⟩] hr _
      (by decide)⟩

/-- C7: for every triple and slot budget, `DecodeBatch` consumes exactly
`min max_slots n` level pairs — so a request beyond the remaining slots is
not a failure but a smaller `levels_read` — and reports
`levels_read ≤ max_slots` and `values_read ≤ levels_read`. -/
theorem claim_C7 (p : SchemaPath) (t : Triple) (m : Nat) :
    (DecodeBatch p t m).1.1 ≤ m ∧
    (DecodeBatch p t m).1.2 ≤ (DecodeBatch p t m).1.1 ∧
    (DecodeBatch p t m).1.1 = min m t.definition_levels.length :=
  decodeBatch_bounds p t m

/-- C8: for every triple of length `n` and every positive `k`, exhaustive
bounded reads with budget `k` make exactly `ceil(n / k)` calls, whose
`levels_read` sum to `n` and whose `values_read` sum to the triple's total
present-slot count. -/
theorem claim_C8 (p : SchemaPath) (t : Triple) (k : Nat) (hk : 0 < k) :
    (batchAll p k t).length = (t.definition_levels.length + k - 1) / k ∧
    ((batchAll p k t).map (·.1)).sum = t.definition_levels.length ∧
    ((batchAll p k t).map (·.2)).sum =
      (t.definition_levels.filter (fun dl => decide (dl = maxDefLevel p))).length :=
  batchAllF_spec p k hk t.definition_levels.length t (Nat.le_refl _)

/-- Witness for C8: the example triple read with budget 2. -/
theorem claim_C8_witness :
    0 < 2 ∧
    ((batchAll examplePath 2 exampleTriple).length =
        (exampleTriple.definition_levels.length + 2 - 1) / 2 ∧
      ((batchAll examplePath 2 exampleTriple).map (·.1)).sum =
        exampleTriple.definition_levels.length ∧
      ((batchAll examplePath 2 exampleTriple).map (·.2)).sum =
        (exampleTriple.definition_levels.filter
          (fun dl => decide (dl = maxDefLevel examplePath))).length) :=
  ⟨by decide, claim_C8 examplePath exampleTriple 2 (by decide)⟩

/-- C9: a triple whose level arrays have mismatched lengths, or in which
some repetition level exceeds the path's maximum repetition depth, makes
`Decode` fail with `CorruptLevels` instead of producing records. -/
theorem claim_C9 (p : SchemaPath) (t : Triple)
    (h : t.definition_levels.length ≠ t.repetition_levels.length ∨
      ∃ r ∈ t.repetition_levels, maxRepLevel p < r) :
    Decode p t = .error .CorruptLevels := by
  by_cases hlen : t.definition_levels.length = t.repetition_levels.length
  · rcases h with h | ⟨r, hr, hgt⟩
    · exact absurd hlen h
    · have hany : t.repetition_levels.any (fun x => decide (maxRepLevel p < x)) = true :=
        List.any_eq_true.mpr ⟨r, hr, by simp [hgt]⟩
      simp [Decode, hlen, hany]
  · simp [Decode, hlen]

/-- Witness for C9: a triple with one definition level but no repetition
levels. -/
theorem claim_C9_witness :
    ((⟨[], [0], []⟩ : Triple).definition_levels.length ≠
        (⟨[], [0], []⟩ : Triple).repetition_levels.length ∨
      ∃ r ∈ (⟨[], [0], []⟩ : Triple).repetition_levels, maxRepLevel examplePath < r) ∧
    Decode examplePath (⟨[], [0], []⟩ : Triple) = .error .CorruptLevels :=
  ⟨Or.inl (by decide), claim_C9 examplePath _ (Or.inl (by decide))⟩

/-- C10: writing one appended row group with one column chunk and closing
the writer yields a file whose metadata reports one row group and one
column. -/
theorem claim_C10 : numRowGroups exampleFile = 1 ∧ numColumns exampleFile = 1 :=
  ⟨rfl, rfl⟩

end ParquetCodec
